import Mathlib

/-!
Verification development for the terraform-testing helper library.

The Go sources (terraform_versions.go, terraform.go, providers.go) are shallowly
embedded below: pure functions become Lean functions on `List Char` / `String`,
the stateful download/cache operations become explicit state passing over a
small world record, and fallible Go functions returning `(T, error)` become
`Except String T`.  Go machine integers are modelled as `Int`/`Nat`; the
version numbers in scope are far below 2^63, and `strconv.Atoi` range errors
are out of the modelled input space (noted at `goAtoi`).
-/

/-! ## Characters and digits -/

/-- Numeric value of an ASCII digit character (Go byte arithmetic `c - '0'`). -/
def digitVal (c : Char) : Nat := c.toNat - 48

/-- Decimal digit test, `'0' <= c && c <= '9'` as in Go's strconv. -/
def isDigitB (c : Char) : Bool := decide (48 ≤ c.toNat) && decide (c.toNat ≤ 57)

/-- The ASCII digit character for a value below ten. -/
def digitChar : Nat → Char
  | 0 => '0' | 1 => '1' | 2 => '2' | 3 => '3' | 4 => '4'
  | 5 => '5' | 6 => '6' | 7 => '7' | 8 => '8' | _ => '9'

/-- Decimal rendering of a natural number, fuelled so that it is structurally
recursive and kernel-reducible.  `natFmt` below always supplies enough fuel. -/
def natFmtAux : Nat → Nat → List Char
  | 0, _ => []
  | fuel + 1, n =>
    if n < 10 then [digitChar n]
    else natFmtAux fuel (n / 10) ++ [digitChar (n % 10)]

/-- Decimal rendering of a natural number (the digits emitted by Go's `%d`). -/
def natFmt (n : Nat) : List Char := natFmtAux (n + 1) n

/-- Decimal rendering of an integer, as Go's `fmt.Sprintf("%d", i)`. -/
def intFmt (i : Int) : List Char :=
  if i < 0 then '-' :: natFmt i.natAbs else natFmt i.natAbs

/-- Value of a list of decimal digits, most significant first. -/
def digitsVal (l : List Char) : Nat := l.foldl (fun a c => a * 10 + digitVal c) 0

/-- Parse a non-empty all-digit string to a natural number, as the digit loop
of Go's `strconv.ParseUint`. -/
def parseDigits (l : List Char) : Option Nat :=
  if l ≠ [] ∧ l.all isDigitB then some (digitsVal l) else none

/-- Go's `strconv.Atoi`: optional single sign, then a non-empty digit string.
The 64-bit range check of the real Atoi is not modelled: every version number
in this program's input space is far below the int64 bound. -/
def goAtoi (l : List Char) : Option Int :=
  match l with
  | [] => none
  | c :: rest =>
    if c = '-' then (parseDigits rest).map (fun n => -(n : Int))
    else if c = '+' then (parseDigits rest).map (fun n => (n : Int))
    else (parseDigits l).map (fun n => (n : Int))

/-! ## List/string utilities shared by the embeddings -/

/-- Go `strings.Split(s, sep)` for a one-character separator: all fields,
empty fields included; the empty input yields one empty field. -/
def splitOnChar (sep : Char) : List Char → List (List Char)
  | [] => [[]]
  | c :: rest =>
    match splitOnChar sep rest with
    | h :: t => if c = sep then [] :: h :: t else (c :: h) :: t
    | [] => if c = sep then [[], []] else [[c]]

/-- Go `strings.TrimPrefix(s, "v")`: drop one leading `v` when present. -/
def dropLeadingV : List Char → List Char
  | [] => []
  | c :: rest => if c = 'v' then rest else c :: rest

/-- Go `strings.Trim(s, cutset)`: remove leading and trailing characters
belonging to the cutset. -/
def trimChars (cut : List Char) (l : List Char) : List Char :=
  ((l.dropWhile (fun c => c ∈ cut)).reverse.dropWhile (fun c => c ∈ cut)).reverse

/-- Byte-lexicographic order on character lists, matching Go's `<=` on the
ASCII strings this program manipulates. -/
def lexLe : List Char → List Char → Bool
  | [], _ => true
  | _ :: _, [] => false
  | a :: as, b :: bs =>
    if a.toNat < b.toNat then true
    else if b.toNat < a.toNat then false
    else lexLe as bs

/-- Lexicographic order on strings (Go `s <= t`). -/
def strLe (a b : String) : Bool := lexLe a.data b.data

/-- Insert into a sorted list, auxiliary to `sortS`. -/
def insertS (x : String) : List String → List String
  | [] => [x]
  | y :: ys => if strLe x y then x :: y :: ys else y :: insertS x ys

/-- Sorting a string slice.  Go's `sort.Strings` / `slices.Sort` produce the
unique lexicographically non-decreasing permutation (equal strings are
indistinguishable), which this insertion sort computes as well. -/
def sortS : List String → List String
  | [] => []
  | x :: xs => insertS x (sortS xs)

/-- `unique.Strings` of github.com/mpvl/unique: remove adjacent duplicates
from a (sorted) slice, keeping the first of each run. -/
def dedupAdj : List String → List String
  | [] => []
  | [x] => [x]
  | x :: y :: rest => if x = y then dedupAdj (y :: rest) else x :: dedupAdj (y :: rest)

/-! ## terraform_versions.go: Version, parseVersion, FilterMinorVersionsE -/

/-- `Version` of terraform_versions.go: a semantic version (Go `int` fields). -/
structure Version where
  Major : Int
  Minor : Int
  Patch : Int
deriving DecidableEq, Repr

/-- `parseVersion` of terraform_versions.go: strip one leading `v`, split on
dots, require at least three segments, `Atoi` the first two, zero the patch. -/
def parseVersion (v : String) : Except String Version :=
  match splitOnChar '.' (dropLeadingV v.data) with
  | p0 :: p1 :: _ :: _ =>
    match goAtoi p0 with
    | none => .error ("invalid major version: " ++ String.mk p0)
    | some major =>
      match goAtoi p1 with
      | none => .error ("invalid minor version: " ++ String.mk p1)
      | some minor => .ok { Major := major, Minor := minor, Patch := 0 }
  | _ => .error ("invalid semantic version format: " ++ v)

/-- The `fmt.Sprintf("%d.%d.%d", Major, Minor, Patch)` key built by
`FilterMinorVersionsE`. -/
def fmtKey (p : Version) : String :=
  String.mk (intFmt p.Major ++ '.' :: (intFmt p.Minor ++ '.' :: intFmt p.Patch))

/-- The collection loop of `FilterMinorVersionsE`: parse each version in
order, aborting on the first error, and format its major.minor.patch key. -/
def collectKeys : List String → Except String (List String)
  | [] => .ok []
  | v :: vs =>
    match parseVersion v with
    | .error e => .error e
    | .ok p =>
      match collectKeys vs with
      | .error e => .error e
      | .ok ks => .ok (fmtKey p :: ks)

/-- `FilterMinorVersionsE` of terraform_versions.go: parse every version,
build `major.minor.0` keys, `sort.Strings` them and deduplicate in place. -/
def FilterMinorVersionsE (versions : List String) : Except String (List String) :=
  match collectKeys versions with
  | .error e => .error e
  | .ok ks => .ok (dedupAdj (sortS ks))

/-! ## terraform_versions.go: filterBlockedTerraformVersion -/

/-- `blockedTerraformVersions` of terraform_versions.go. -/
def blockedTerraformVersions : List String := ["1.10.0"]

/-- Go `slices.BinarySearch(l, target)` observed through its contract: the
smallest index whose element is not below the target, and whether the target
sits there.  (On the sorted slices this program searches, the linear scan
below returns exactly the pair the binary search returns.) -/
def binarySearchS (target : String) : List String → Nat × Bool
  | [] => (0, false)
  | x :: xs =>
    if strLe target x then (0, x = target)
    else
      let (n, found) := binarySearchS target xs
      (n + 1, found)

/-- The loop of `filterBlockedTerraformVersion`.  The first accumulator is the
`available` slice as seen through its original header after the in-place
`slices.Delete` (shifted left, tail zeroed to `""` by Go >= 1.22); the second
is `filteredAvailableVersions`, which is only assigned when a blocked entry is
found. -/
def filterBlockedLoop : List String → List String → List String → List String
  | [], _avail, result => result
  | b :: bs, avail, result =>
    let (n, found) := binarySearchS b avail
    if found then
      filterBlockedLoop bs (avail.take n ++ avail.drop (n + 1) ++ [""])
        (avail.take n ++ avail.drop (n + 1))
    else filterBlockedLoop bs avail result

/-- `filterBlockedTerraformVersion` of terraform_versions.go: sort the input,
binary-search each blocklist entry, delete it when found.  Note the result
variable starts out as the nil slice and is only assigned inside the loop. -/
def filterBlockedTerraformVersion (available : List String) : List String :=
  filterBlockedLoop blockedTerraformVersions (sortS available) []

instance {α β : Type} [DecidableEq α] [DecidableEq β] : DecidableEq (Except α β) := fun a b =>
  match a, b with
  | .ok x, .ok y => if h : x = y then .isTrue (by rw [h]) else .isFalse (by intro hc; cases hc; exact h rfl)
  | .error x, .error y => if h : x = y then .isTrue (by rw [h]) else .isFalse (by intro hc; cases hc; exact h rfl)
  | .ok _, .error _ => .isFalse (by intro hc; cases hc)
  | .error _, .ok _ => .isFalse (by intro hc; cases hc)

/-! ## terraform.go: GetMatchingVersionsE

The constraint evaluation itself lives in the external dependency
github.com/hashicorp/go-version, which is not under src/.  Modelled from the
spec: a `Version` is "{major, minor, patch} integers parsed from a
'vX.Y.Z'-like string" with non-negative components, a `Constraint` is "a range
expression (e.g., '>=1.2,<2.0') evaluated against parsed versions" given as
comma-separated operator/version pairs, and `matching` "returns the subset of
versions whose parsed Version satisfies the constraint", so a parsed version
remembers the original input string it came from.  The pessimistic `~>`
operator is not described by the spec and is out of the modelled space. -/

/-- A parsed semantic version of the constraint library, padded to three
numeric components, remembering the original string. -/
structure GoVersion where
  maj : Nat
  mnr : Nat
  pat : Nat
  original : String
deriving DecidableEq, Repr

/-- Modelled from the spec: version parsing of the constraint library.  An
optional leading `v` is stripped; one to three dot-separated numeric segments
are required; missing segments are zero. -/
def goParseVersion (s : String) : Except String GoVersion :=
  let parts := splitOnChar '.' (dropLeadingV s.data)
  if 3 < parts.length then .error ("Malformed version: " ++ s)
  else
    match parts.mapM parseDigits with
    | none => .error ("Malformed version: " ++ s)
    | some segs => .ok { maj := segs.getD 0 0, mnr := segs.getD 1 0, pat := segs.getD 2 0, original := s }

/-- Comparison operators of a range constraint. -/
inductive COp where
  | ceq | cne | cgt | clt | cge | cle
deriving DecidableEq, Repr

/-- One term of a range constraint: an operator applied to a version. -/
structure CTerm where
  op : COp
  v : GoVersion
deriving DecidableEq, Repr

/-- Split the leading comparison operator off a constraint term (two-character
operators first, equality when no operator is written). -/
def splitOp (t : List Char) : COp × List Char :=
  match t with
  | a :: b :: rest =>
    if a = '>' ∧ b = '=' then (.cge, rest)
    else if a = '<' ∧ b = '=' then (.cle, rest)
    else if a = '!' ∧ b = '=' then (.cne, rest)
    else if a = '>' then (.cgt, b :: rest)
    else if a = '<' then (.clt, b :: rest)
    else if a = '=' then (.ceq, b :: rest)
    else (.ceq, a :: b :: rest)
  | [a] =>
    if a = '>' then (.cgt, [])
    else if a = '<' then (.clt, [])
    else if a = '=' then (.ceq, [])
    else (.ceq, [a])
  | [] => (.ceq, [])

/-- Modelled from the spec: parse one comma-separated constraint term. -/
def parseCTerm (l : List Char) : Except String CTerm :=
  let (op, rest) := splitOp (trimChars [' '] l)
  match goParseVersion (String.mk (trimChars [' '] rest)) with
  | .error e => .error e
  | .ok v => .ok { op := op, v := v }

/-- Run an `Except`-valued function over a list, aborting on the first error,
as the sequential Go loops do. -/
def mapME {α β : Type} (f : α → Except String β) : List α → Except String (List β)
  | [] => .ok []
  | x :: xs =>
    match f x with
    | .error e => .error e
    | .ok y =>
      match mapME f xs with
      | .error e => .error e
      | .ok ys => .ok (y :: ys)

/-- Modelled from the spec: `version.NewConstraint`, a comma-separated list of
operator/version terms. -/
def goParseConstraint (s : String) : Except String (List CTerm) :=
  mapME parseCTerm (splitOnChar ',' s.data)

/-- Strict ordering of parsed versions: lexicographic on (major, minor, patch). -/
def vLtB (a b : GoVersion) : Bool :=
  if a.maj ≠ b.maj then decide (a.maj < b.maj)
  else if a.mnr ≠ b.mnr then decide (a.mnr < b.mnr)
  else decide (a.pat < b.pat)

/-- Numeric equality of parsed versions (the original strings may differ). -/
def vEqB (a b : GoVersion) : Bool :=
  decide (a.maj = b.maj) && decide (a.mnr = b.mnr) && decide (a.pat = b.pat)

/-- Satisfaction of one constraint term by a candidate version. -/
def checkTerm (c : CTerm) (v : GoVersion) : Bool :=
  match c.op with
  | .ceq => vEqB v c.v
  | .cne => !(vEqB v c.v)
  | .cgt => vLtB c.v v
  | .clt => vLtB v c.v
  | .cge => !(vLtB v c.v)
  | .cle => !(vLtB c.v v)

/-- `Constraint.Check`: conjunction of all terms. -/
def goCheck (want : List CTerm) (v : GoVersion) : Bool := want.all (fun c => checkTerm c v)

/-- `GetMatchingVersionsE` of terraform.go: parse the constraint, parse every
candidate version aborting on the first failure, then keep the versions whose
parsed form satisfies the constraint. -/
def GetMatchingVersionsE (constraint : String) (versions : List String) :
    Except String (List String) :=
  match goParseConstraint constraint with
  | .error e => .error e
  | .ok want =>
    match mapME goParseVersion versions with
    | .error e => .error e
    | .ok vers => .ok ((vers.filter (goCheck want)).map GoVersion.original)

/-! ## providers.go: ModuleMetadataCatalog.Resolve -/

/-- `ModuleMetadata` of providers.go. -/
structure ModuleMetadata where
  Organisation : String
  Name : String
  Provider : String
  LocalPath : String
deriving DecidableEq, Repr

/-- `ModuleMetadataCatalog` of providers.go.  The `sync.RWMutex` guards the
list against a concurrent `Init`; `Resolve` itself only reads `Meta`, so the
catalog is embedded as its entry list. -/
structure ModuleMetadataCatalog where
  Meta : List ModuleMetadata
deriving DecidableEq, Repr

/-- The key comparison of the `Resolve` scan. -/
def matchesKey (p1 p2 p3 : List Char) (m : ModuleMetadata) : Bool :=
  decide (m.Organisation.data = p1) && decide (m.Name.data = p2) && decide (m.Provider.data = p3)

/-- The linear scan of `Resolve`: first entry whose key matches wins. -/
def resolveScan (p1 p2 p3 : List Char) : List ModuleMetadata → String × Bool
  | [] => ("", false)
  | m :: ms =>
    if matchesKey p1 p2 p3 m then (m.LocalPath, true) else resolveScan p1 p2 p3 ms

/-- `ModuleMetadataCatalog.Resolve` of providers.go: trim spaces and double
quotes, split on `/`, demand exactly four segments, then scan the catalog for
the first entry matching segments two to four. -/
def ModuleMetadataCatalog.Resolve (mmc : ModuleMetadataCatalog) (src : String) : String × Bool :=
  match splitOnChar '/' (trimChars [' ', '"'] src.data) with
  | [_, p1, p2, p3] => resolveScan p1 p2 p3 mmc.Meta
  | _ => ("", false)

/-! ## terraform.go: filepath.Clean / Join and the zip-slip guard -/

/-- The element loop of Go's `filepath.Clean` (Unix rules): skip empty and
dot elements, let a dotdot pop a real element, drop a dotdot at the root of a
rooted path, and keep it on a relative path. -/
def cleanLoop (rooted : Bool) : List String → List String → List String
  | [], acc => acc.reverse
  | e :: es, acc =>
    if e = "" ∨ e = "." then cleanLoop rooted es acc
    else if e = ".." then
      match acc with
      | top :: rest => if top = ".." then cleanLoop rooted es (".." :: top :: rest) else cleanLoop rooted es rest
      | [] => if rooted then cleanLoop rooted es [] else cleanLoop rooted es [".."]
    else cleanLoop rooted es (e :: acc)

/-- Join path elements with slashes. -/
def joinSlash : List String → String
  | [] => ""
  | [e] => e
  | e :: es => e ++ "/" ++ joinSlash es

/-- Go's `filepath.Clean` on Unix: purely lexical normalisation. -/
def cleanPath (p : String) : String :=
  if p = "" then "."
  else
    let rooted := p.data.head? == some '/'
    match rooted, cleanLoop rooted ((splitOnChar '/' p.data).map String.mk) [] with
    | true, [] => "/"
    | false, [] => "."
    | true, es => "/" ++ joinSlash es
    | false, es => joinSlash es

/-- Go's `filepath.Join` for the two non-empty operands the extraction code
passes: concatenate with a separator and clean. -/
def joinPath (a b : String) : String :=
  if a = "" ∧ b = "" then ""
  else if a = "" then cleanPath b
  else if b = "" then cleanPath a
  else cleanPath (a ++ "/" ++ b)

/-- The path computation and zip-slip guard of `extractAndWriteFile` in
terraform.go: resolve the entry name against the destination directory and
reject the entry unless the resolved path sits strictly inside the cleaned
destination.  On `.ok p` the function goes on to write only at `p` (and at
parent directories of `p`); on `.error` it writes nothing. -/
def extractEntryPath (dst : String) (name : String) : Except String String :=
  let path := joinPath dst name
  if List.isPrefixOf (cleanPath dst ++ "/").data path.data then .ok path
  else .error ("Error: illegal file path: " ++ path)

/-! ## terraform.go / providers.go: the download and cache operations

The downloads interleave filesystem and network effects.  They are embedded as
explicit state passing: `NetEnv` fixes the outcome of each external step (the
releases-API URL resolution, the artifact GET, the zip open, the extraction
loop, the final rename), and `CacheWorld` carries the observable cache state
for the one (artifact, version, platform) key under consideration, together
with a counter of artifact download requests.  Temporary artifacts (the
downloaded zip, the staging directory) live at other paths and are removed by
the deferred cleanups; only the final cache path is the cache-hit test, so
only it is tracked. -/

/-- Outcomes of the external steps of one download. -/
structure NetEnv where
  urlResult : Except String String
  getStatus : Except String Nat
  zipOpen : Except String Unit
  extract : Except String Unit
  renameOk : Bool
deriving DecidableEq, Repr

/-- Observable cache state for one cache key. -/
structure CacheWorld where
  cacheExists : Bool
  downloads : Nat
deriving DecidableEq, Repr

/-- The final cache path of `DownloadTerraformVersionE`:
`~/.terraform.versions/terraform_<version>`. -/
def tfBinaryPath (home ver : String) : String :=
  home ++ "/.terraform.versions" ++ "/terraform_" ++ ver

/-- `DownloadTerraformVersionE` of terraform.go.  If the final cache path
exists, return it untouched (`os.Stat` short-circuit).  Otherwise resolve the
download URL, GET it, and on a 200 response unzip into a staging directory and
rename the binary to the final cache path.  A non-200 response discards the
`fmt.Errorf` value and returns an empty path with a nil error. -/
def downloadTerraformVersionE (env : NetEnv) (home ver : String) (w : CacheWorld) :
    Except String String × CacheWorld :=
  if w.cacheExists then (.ok (tfBinaryPath home ver), w)
  else
    match env.urlResult with
    | .error e => (.error e, w)
    | .ok _url =>
      match env.getStatus with
      | .error e => (.error e, { w with downloads := w.downloads + 1 })
      | .ok status =>
        let w := { w with downloads := w.downloads + 1 }
        if status ≠ 200 then (.ok "", w)
        else
          match env.zipOpen with
          | .error e => (.error e, w)
          | .ok _ =>
            match env.extract with
            | .error e => (.error e, w)
            | .ok _ =>
              if env.renameOk then (.ok (tfBinaryPath home ver), { w with cacheExists := true })
              else (.error "rename failed", w)

/-- `DownloadTerraformVersion` of terraform.go: the caller-facing wrapper,
`t.Fatalf` on error (`none`), otherwise the returned path. -/
def downloadTerraformVersion (env : NetEnv) (home ver : String) (w : CacheWorld) :
    Option String × CacheWorld :=
  match downloadTerraformVersionE env home ver w with
  | (.ok p, w1) => (some p, w1)
  | (.error _, w1) => (none, w1)

/-- `GetBinaryPath` of providers.go: `~/.terraform.d/plugin-cache`. -/
def getBinaryPath (home : String) : String := home ++ "/.terraform.d/plugin-cache"

/-- The final cache path of `DownloadProviderVersionE`:
`<plugin-cache>/registry.terraform.io/<sourceAddress>/<version>`. -/
def providerBinaryPath (home srcAddr ver : String) : String :=
  getBinaryPath home ++ "/registry.terraform.io/" ++ srcAddr ++ "/" ++ ver

/-- `DownloadProviderVersionE` of providers.go.  If the final cache path
exists, return it (cache hit).  Otherwise the code immediately runs
`os.MkdirAll(binaryPath, ...)`, creating the final cache directory before any
network step, and only then resolves the URL, GETs the artifact, unzips into a
staging directory and renames the platform directory underneath the (already
created) cache path, returning the plugin-cache root on success.  A non-200
response returns an empty path with a nil error. -/
def downloadProviderVersionE (env : NetEnv) (home srcAddr ver : String) (w : CacheWorld) :
    Except String String × CacheWorld :=
  if w.cacheExists then (.ok (providerBinaryPath home srcAddr ver), w)
  else
    let w := { w with cacheExists := true }
    match env.urlResult with
    | .error e => (.error ("Error: " ++ e), w)
    | .ok _url =>
      match env.getStatus with
      | .error e => (.error ("Error: " ++ e), { w with downloads := w.downloads + 1 })
      | .ok status =>
        let w := { w with downloads := w.downloads + 1 }
        if status ≠ 200 then (.ok "", w)
        else
          match env.zipOpen with
          | .error e => (.error ("Error: " ++ e), w)
          | .ok _ =>
            match env.extract with
            | .error e => (.error ("Error: " ++ e), w)
            | .ok _ =>
              if env.renameOk then (.ok (getBinaryPath home), w)
              else (.error "Error: rename failed", w)

/-- `DownloadProviderVersion` of providers.go: `t.Fatalf` on error. -/
def downloadProviderVersion (env : NetEnv) (home srcAddr ver : String) (w : CacheWorld) :
    Option String × CacheWorld :=
  match downloadProviderVersionE env home srcAddr ver w with
  | (.ok p, w1) => (some p, w1)
  | (.error _, w1) => (none, w1)

/-! ## terraform.go: UpdateModuleSourceAndVersionE

The HCL parser/serializer (hclwrite) is the out-of-scope config-parsing
capability.  Modelled from the spec: a parsed file is a tree of labeled blocks
with attribute maps, `SetAttributeValue` replaces the value of an existing
attribute or appends a new one, `RemoveAttribute` deletes the attribute, and
serializing the unchanged tree reproduces the file, so file contents are
identified with their block trees and an unwritten file is returned as-is. -/

/-- One HCL block: kind, labels, attributes in source order. -/
structure Block where
  type : String
  labels : List String
  attrs : List (String × String)
deriving DecidableEq, Repr

/-- One file of the scanned directory.  `IterateTerraformInDirectory` skips
subdirectories and files whose name does not end in `.tf`. -/
structure TfFile where
  name : String
  isDir : Bool
  blocks : List Block
deriving DecidableEq, Repr

/-- Does a file name carry the `.tf` suffix (Go `strings.HasSuffix`)? -/
def isTfName (name : String) : Bool := List.isSuffixOf ".tf".data name.data

/-- hclwrite `Body.SetAttributeValue`: replace the first attribute of that
name, or append one at the end of the body. -/
def setAttr : List (String × String) → String → String → List (String × String)
  | [], n, v => [(n, v)]
  | (k, w) :: rest, n, v =>
    if k = n then (n, v) :: rest else (k, w) :: setAttr rest n v

/-- hclwrite `Body.RemoveAttribute`: drop the first attribute of that name. -/
def removeAttr : List (String × String) → String → List (String × String)
  | [], _ => []
  | (k, w) :: rest, n => if k = n then rest else (k, w) :: removeAttr rest n

/-- hclwrite `Body.GetAttribute`: the first attribute of that name. -/
def getAttr : List (String × String) → String → Option String
  | [], _ => none
  | (k, w) :: rest, n => if k = n then some w else getAttr rest n

/-- Is this block rewritten by `UpdateModuleSourceAndVersionE`?  A `module`
block with exactly one label, whose label matches the requested module name or
a `*` wildcard. -/
def isTargetModule (module : String) (b : Block) : Bool :=
  b.type == "module" && b.labels.length == 1
    && (b.labels.head? == some module || module == "*")

/-- The per-block rewrite: set `source`, and set or remove `version`. -/
def applyModuleUpdate (src ver : String) (b : Block) : Block :=
  let attrs := setAttr b.attrs "source" src
  let attrs := if ver ≠ "" then setAttr attrs "version" ver else removeAttr attrs "version"
  { b with attrs := attrs }

/-- The block loop of the `UpdateModuleSourceAndVersionE` visit callback,
returning the rewritten blocks and the `hasChanges` flag. -/
def visitModuleBlocks (module src ver : String) : List Block → List Block × Bool
  | [] => ([], false)
  | b :: bs =>
    let (rest, changed) := visitModuleBlocks module src ver bs
    if isTargetModule module b then (applyModuleUpdate src ver b :: rest, true)
    else (b :: rest, changed)

/-- `UpdateModuleSourceAndVersionE` of terraform.go: normalise a bare `..`
source to `../`, then for every `.tf` file of the directory rewrite the
matching module blocks, writing the file back only when `hasChanges` was
reported. -/
def UpdateModuleSourceAndVersionE (dir : List TfFile) (module src ver : String) : List TfFile :=
  let src := if src = ".." then "../" else src
  dir.map (fun f =>
    if f.isDir || !(isTfName f.name) then f
    else
      match visitModuleBlocks module src ver f.blocks with
      | (blocks, changed) => if changed then { f with blocks := blocks } else f)

/-!
# Theorems

Helper lemmas come first; the claim theorems and their witnesses close the
file.
-/

/-- C1: the claim states that `filterBlockedTerraformVersion` keeps every
non-matching version for every input.  The code initialises the result slice
to nil and only assigns it when a blocklist entry is found by the binary
search, so an input containing no blocked version is filtered to the empty
list and every version is dropped.  The first conjunct evaluates the code at
such a failing input; the remaining conjuncts show that on the claim's quoted
input the single occurrence of "1.10.0" is removed and the others kept, in
either input order. -/
theorem filterBlocked_drops_all_when_no_match :
    filterBlockedTerraformVersion ["1.0.0", "2.0.0"] = []
  ∧ filterBlockedTerraformVersion ["2.0.0", "1.0.0", "1.10.0"] = ["1.0.0", "2.0.0"]
  ∧ filterBlockedTerraformVersion ["1.10.0", "2.0.0", "1.0.0"] = ["1.0.0", "2.0.0"] := by
  exact ⟨rfl, rfl, rfl⟩

/-- C2: the claim states that a download failing after the cache-existence
check leaves no cache entry at the final cache path.  `DownloadTerraformVersionE`
satisfies this (first two conjuncts: a URL-resolution failure returns the
error and leaves the cache state untouched), but `DownloadProviderVersionE`
runs `os.MkdirAll` on the final cache path before any network step: after the
same URL-resolution failure the entry exists (middle conjuncts) and a second
call returns it as a spurious cache hit (last conjunct). -/
theorem providerDownload_failure_leaves_cache_entry :
    (downloadTerraformVersionE
        { urlResult := .error "no build", getStatus := .error "net",
          zipOpen := .error "zip", extract := .error "ex", renameOk := false }
        "/h" "5.0.0" { cacheExists := false, downloads := 0 })
      = (.error "no build", { cacheExists := false, downloads := 0 })
  ∧ (downloadProviderVersionE
        { urlResult := .error "no build", getStatus := .error "net",
          zipOpen := .error "zip", extract := .error "ex", renameOk := false }
        "/h" "hashicorp/aws" "5.0.0" { cacheExists := false, downloads := 0 })
      = (.error "Error: no build", { cacheExists := true, downloads := 0 })
  ∧ (downloadProviderVersionE
        { urlResult := .error "no build", getStatus := .error "net",
          zipOpen := .error "zip", extract := .error "ex", renameOk := false }
        "/h" "hashicorp/aws" "5.0.0" { cacheExists := true, downloads := 0 })
      = (.ok (providerBinaryPath "/h" "hashicorp/aws" "5.0.0"),
         { cacheExists := true, downloads := 0 }) := by
  exact ⟨rfl, rfl, rfl⟩

/-- C10: when the artifact GET completes with a non-200 status, both download
operations return an empty path and a nil error, and the caller-facing
fatal-on-error wrappers therefore do not fail the test and hand the caller the
unusable empty path. -/
theorem download_non200_silent (env : NetEnv) (home srcAddr ver : String) (w : CacheWorld)
    (hc : w.cacheExists = false) (u : String) (hu : env.urlResult = .ok u)
    (s : Nat) (hs : env.getStatus = .ok s) (h200 : s ≠ 200) :
    (downloadTerraformVersionE env home ver w).1 = .ok ""
  ∧ (downloadProviderVersionE env home srcAddr ver w).1 = .ok ""
  ∧ (downloadTerraformVersion env home ver w).1 = some ""
  ∧ (downloadProviderVersion env home srcAddr ver w).1 = some "" := by
  have h1 : (downloadTerraformVersionE env home ver w).1 = .ok "" := by
    simp [downloadTerraformVersionE, hc, hu, hs, h200]
  have h2 : (downloadProviderVersionE env home srcAddr ver w).1 = .ok "" := by
    simp [downloadProviderVersionE, hc, hu, hs, h200]
  refine ⟨h1, h2, ?_, ?_⟩
  · unfold downloadTerraformVersion
    cases hdef : downloadTerraformVersionE env home ver w with
    | mk r w1 =>
      rw [hdef] at h1
      replace h1 : r = .ok "" := h1
      subst h1
      rfl
  · unfold downloadProviderVersion
    cases hdef : downloadProviderVersionE env home srcAddr ver w with
    | mk r w1 =>
      rw [hdef] at h2
      replace h2 : r = .ok "" := h2
      subst h2
      rfl

/-- C10 witness: a concrete 404 response. -/
theorem download_non200_silent_witness :
    (downloadTerraformVersionE
        { urlResult := .ok "u", getStatus := .ok 404,
          zipOpen := .ok (), extract := .ok (), renameOk := true }
        "/h" "1.2.3" { cacheExists := false, downloads := 0 }).1 = .ok ""
  ∧ (downloadProviderVersionE
        { urlResult := .ok "u", getStatus := .ok 404,
          zipOpen := .ok (), extract := .ok (), renameOk := true }
        "/h" "hashicorp/aws" "1.2.3" { cacheExists := false, downloads := 0 }).1 = .ok ""
  ∧ (downloadTerraformVersion
        { urlResult := .ok "u", getStatus := .ok 404,
          zipOpen := .ok (), extract := .ok (), renameOk := true }
        "/h" "1.2.3" { cacheExists := false, downloads := 0 }).1 = some ""
  ∧ (downloadProviderVersion
        { urlResult := .ok "u", getStatus := .ok 404,
          zipOpen := .ok (), extract := .ok (), renameOk := true }
        "/h" "hashicorp/aws" "1.2.3" { cacheExists := false, downloads := 0 }).1 = some "" :=
  download_non200_silent
    { urlResult := .ok "u", getStatus := .ok 404,
      zipOpen := .ok (), extract := .ok (), renameOk := true }
    "/h" "hashicorp/aws" "1.2.3" { cacheExists := false, downloads := 0 }
    rfl "u" rfl 404 rfl (by decide)

/-- C4: if the final cache path already exists, both download operations
return it immediately and leave the world untouched (in particular no network
request is made); and when a first call from a cache miss succeeds with a
non-empty path, exactly one artifact download has been performed, the cache
entry exists afterwards, and a second identical call is a cache hit that
performs no further download and changes nothing. -/
theorem download_cache_hit_spec (env : NetEnv) (home srcAddr ver : String) (w : CacheWorld) :
    (w.cacheExists = true →
      downloadTerraformVersionE env home ver w = (.ok (tfBinaryPath home ver), w)
      ∧ downloadProviderVersionE env home srcAddr ver w
          = (.ok (providerBinaryPath home srcAddr ver), w))
  ∧ (∀ p w1, w.cacheExists = false →
      downloadTerraformVersionE env home ver w = (.ok p, w1) → p ≠ "" →
      p = tfBinaryPath home ver ∧ w1.cacheExists = true ∧ w1.downloads = w.downloads + 1
      ∧ downloadTerraformVersionE env home ver w1 = (.ok (tfBinaryPath home ver), w1))
  ∧ (∀ p w1, w.cacheExists = false →
      downloadProviderVersionE env home srcAddr ver w = (.ok p, w1) → p ≠ "" →
      w1.cacheExists = true ∧ w1.downloads = w.downloads + 1
      ∧ downloadProviderVersionE env home srcAddr ver w1
          = (.ok (providerBinaryPath home srcAddr ver), w1)) := by
  obtain ⟨ur, gs, zo, ex, ro⟩ := env
  refine ⟨?_, ?_, ?_⟩
  · intro h
    exact ⟨by simp [downloadTerraformVersionE, h], by simp [downloadProviderVersionE, h]⟩
  · intro p w1 hc h hp
    cases ur with
    | error e => simp [downloadTerraformVersionE, hc] at h
    | ok u =>
      cases gs with
      | error e => simp [downloadTerraformVersionE, hc] at h
      | ok s =>
        by_cases h200 : s = 200
        · subst h200
          cases zo with
          | error e => simp [downloadTerraformVersionE, hc] at h
          | ok _ =>
            cases ex with
            | error e => simp [downloadTerraformVersionE, hc] at h
            | ok _ =>
              cases ro with
              | false => simp [downloadTerraformVersionE, hc] at h
              | true =>
                simp [downloadTerraformVersionE, hc] at h
                obtain ⟨h1, h2⟩ := h
                subst h2
                exact ⟨h1.symm, rfl, rfl, by simp [downloadTerraformVersionE]⟩
        · simp [downloadTerraformVersionE, hc, h200] at h
          exact absurd h.1.symm hp
  · intro p w1 hc h hp
    cases ur with
    | error e => simp [downloadProviderVersionE, hc] at h
    | ok u =>
      cases gs with
      | error e => simp [downloadProviderVersionE, hc] at h
      | ok s =>
        by_cases h200 : s = 200
        · subst h200
          cases zo with
          | error e => simp [downloadProviderVersionE, hc] at h
          | ok _ =>
            cases ex with
            | error e => simp [downloadProviderVersionE, hc] at h
            | ok _ =>
              cases ro with
              | false => simp [downloadProviderVersionE, hc] at h
              | true =>
                simp [downloadProviderVersionE, hc] at h
                obtain ⟨h1, h2⟩ := h
                subst h2
                exact ⟨rfl, rfl, by simp [downloadProviderVersionE]⟩
        · simp [downloadProviderVersionE, hc, h200] at h
          exact absurd h.1.symm hp

/-- C4 witness: a fully successful stubbed download from an empty cache,
followed by the cache hit. -/
theorem download_cache_hit_witness :
    tfBinaryPath "/h" "1.2.3" = tfBinaryPath "/h" "1.2.3"
  ∧ ({ cacheExists := true, downloads := 1 } : CacheWorld).cacheExists = true
  ∧ ({ cacheExists := true, downloads := 1 } : CacheWorld).downloads
      = ({ cacheExists := false, downloads := 0 } : CacheWorld).downloads + 1
  ∧ downloadTerraformVersionE
      { urlResult := .ok "u", getStatus := .ok 200,
        zipOpen := .ok (), extract := .ok (), renameOk := true }
      "/h" "1.2.3" { cacheExists := true, downloads := 1 }
      = (.ok (tfBinaryPath "/h" "1.2.3"), { cacheExists := true, downloads := 1 }) :=
  (download_cache_hit_spec
      { urlResult := .ok "u", getStatus := .ok 200,
        zipOpen := .ok (), extract := .ok (), renameOk := true }
      "/h" "hashicorp/aws" "1.2.3" { cacheExists := false, downloads := 0 }).2.1
    (tfBinaryPath "/h" "1.2.3") { cacheExists := true, downloads := 1 }
    rfl rfl (by decide)

/-- The linear scan of `Resolve` returns the first matching entry, in
`List.find?` terms. -/
theorem resolveScan_eq_find (p1 p2 p3 : List Char) (ms : List ModuleMetadata) :
    resolveScan p1 p2 p3 ms =
      match ms.find? (matchesKey p1 p2 p3) with
      | some m => (m.LocalPath, true)
      | none => ("", false) := by
  induction ms with
  | nil => rfl
  | cons m ms ih =>
    by_cases h : matchesKey p1 p2 p3 m = true
    · simp [resolveScan, List.find?, h]
    · simp only [Bool.not_eq_true] at h
      simp [resolveScan, List.find?, h, ih]

/-- C3: whenever `extractAndWriteFile` is allowed to write (the guard returns
`.ok p`), the resolved path `p` sits strictly inside the cleaned destination
directory, so nothing is ever written outside it; whenever the resolved path
escapes the destination (no such prefix), the entry is rejected with the
illegal-file-path error; and in particular a `../../` traversal payload is
rejected. -/
theorem extract_zipslip_guard (dst name : String) :
    (∀ p, extractEntryPath dst name = .ok p →
      List.isPrefixOf (cleanPath dst ++ "/").data p.data = true)
  ∧ (¬ List.isPrefixOf (cleanPath dst ++ "/").data (joinPath dst name).data = true →
      extractEntryPath dst name = .error ("Error: illegal file path: " ++ joinPath dst name))
  ∧ extractEntryPath "/tmp/extract" "../../etc/passwd"
      = .error "Error: illegal file path: /etc/passwd" := by
  refine ⟨?_, ?_, rfl⟩
  · intro p h
    simp only [extractEntryPath] at h
    split at h
    · next hg => cases h; exact hg
    · cases h
  · intro hg
    simp only [extractEntryPath]
    rw [if_neg hg]

/-- C3 witness: a benign entry is accepted and its path is below the
destination. -/
theorem extract_zipslip_guard_witness :
    List.isPrefixOf (cleanPath "/tmp/extract" ++ "/").data "/tmp/extract/terraform".data = true :=
  (extract_zipslip_guard "/tmp/extract" "terraform").1 "/tmp/extract/terraform" rfl

/-- C8: `Resolve` on a source string that does not split (after trimming
spaces and double quotes) into exactly four slash-separated segments returns
not-found with an empty path; on a four-segment string it returns the
`LocalPath` of the first catalog entry (registration order) whose key equals
segments two to four, or not-found if there is none.  The function is total,
so it never panics. -/
theorem resolve_spec (mmc : ModuleMetadataCatalog) (src : String) :
    (ModuleMetadataCatalog.Resolve mmc src =
      match splitOnChar '/' (trimChars [' ', '"'] src.data) with
      | [_, p1, p2, p3] =>
        (match mmc.Meta.find? (matchesKey p1 p2 p3) with
         | some m => (m.LocalPath, true)
         | none => ("", false))
      | _ => ("", false))
  ∧ ((splitOnChar '/' (trimChars [' ', '"'] src.data)).length ≠ 4 →
      ModuleMetadataCatalog.Resolve mmc src = ("", false)) := by
  have main : ModuleMetadataCatalog.Resolve mmc src =
      match splitOnChar '/' (trimChars [' ', '"'] src.data) with
      | [_, p1, p2, p3] =>
        (match mmc.Meta.find? (matchesKey p1 p2 p3) with
         | some m => (m.LocalPath, true)
         | none => ("", false))
      | _ => ("", false) := by
    unfold ModuleMetadataCatalog.Resolve
    generalize splitOnChar '/' (trimChars [' ', '"'] src.data) = parts
    match parts with
    | [] => rfl
    | [_] => rfl
    | [_, _] => rfl
    | [_, _, _] => rfl
    | [_, p1, p2, p3] => exact resolveScan_eq_find p1 p2 p3 mmc.Meta
    | _ :: _ :: _ :: _ :: _ :: _ => rfl
  refine ⟨main, ?_⟩
  intro hlen
  rw [main]
  generalize hsp : splitOnChar '/' (trimChars [' ', '"'] src.data) = parts at hlen
  match parts, hlen with
  | [], _ => rfl
  | [_], _ => rfl
  | [_, _], _ => rfl
  | [_, _, _], _ => rfl
  | [_, _, _, _], h => simp at h
  | _ :: _ :: _ :: _ :: _ :: _, _ => rfl

/-- C8 witness: a two-segment relative source resolves to not-found, and on a
four-segment source a duplicate key resolves to the first registration. -/
theorem resolve_spec_witness :
    ModuleMetadataCatalog.Resolve { Meta := [] } "../module/dir" = ("", false)
  ∧ ModuleMetadataCatalog.Resolve
      { Meta := [{ Organisation := "ovotech", Name := "m", Provider := "aws", LocalPath := "/first" },
                 { Organisation := "ovotech", Name := "m", Provider := "aws", LocalPath := "/second" }] }
      "\"app.terraform.io/ovotech/m/aws\"" = ("/first", true) := by
  constructor
  · exact (resolve_spec { Meta := [] } "../module/dir").2 (by decide)
  · rw [(resolve_spec _ _).1]
    rfl

/-- `any` and `all` duality used to relate the `hasChanges` flag to the
absence of matching blocks. -/
theorem any_eq_not_all_not {α : Type} (p : α → Bool) (l : List α) :
    l.any p = !(l.all fun a => !p a) := by
  induction l with
  | nil => rfl
  | cons a l ih => by_cases h : p a <;> simp [h, ih]

/-- The visit loop of `UpdateModuleSourceAndVersionE` rewrites exactly the
matching blocks and reports a change exactly when some block matched. -/
theorem visitModuleBlocks_eq (module src ver : String) (bs : List Block) :
    visitModuleBlocks module src ver bs
      = (bs.map (fun b => if isTargetModule module b then applyModuleUpdate src ver b else b),
         bs.any (isTargetModule module)) := by
  induction bs with
  | nil => rfl
  | cons b bs ih =>
    by_cases h : isTargetModule module b = true
    · simp [visitModuleBlocks, ih, h]
    · simp only [Bool.not_eq_true] at h
      simp [visitModuleBlocks, ih, h]

/-- `getAttr` misses when the name is absent. -/
theorem getAttr_eq_none_of_not_mem (attrs : List (String × String)) (n : String)
    (h : n ∉ attrs.map Prod.fst) : getAttr attrs n = none := by
  induction attrs with
  | nil => rfl
  | cons kv rest ih =>
    obtain ⟨k, w⟩ := kv
    simp only [List.map_cons, List.mem_cons] at h
    push_neg at h
    simp [getAttr, Ne.symm h.1, ih h.2]

/-- C9: `UpdateModuleSourceAndVersionE` maps every file of the directory as
follows: subdirectories and non-`.tf` files are untouched; a `.tf` file none
of whose blocks is a single-label `module` block matching the requested name
(or the `*` wildcard) is returned untouched; in a file with at least one
matching block, exactly the matching blocks are rewritten (others kept) with
`source` set to the new source, a bare `..` normalised to `../`.  The last
two conjuncts state the attribute semantics of the rewrite: after the
rewrite `source` reads back as the value just set, and when the new version
is empty the `version` attribute is removed (reads back as absent on a
well-formed body with distinct attribute names). -/
theorem update_module_spec (dir : List TfFile) (module src ver : String) :
    (UpdateModuleSourceAndVersionE dir module src ver =
      dir.map (fun f =>
        if f.isDir || !(isTfName f.name) then f
        else if f.blocks.all (fun b => !(isTargetModule module b)) then f
        else { f with blocks := f.blocks.map (fun b =>
          if isTargetModule module b then
            applyModuleUpdate (if src = ".." then "../" else src) ver b
          else b) }))
  ∧ (∀ (attrs : List (String × String)) (n v : String), getAttr (setAttr attrs n v) n = some v)
  ∧ (∀ (attrs : List (String × String)) (n : String),
      (attrs.map Prod.fst).Nodup → getAttr (removeAttr attrs n) n = none) := by
  refine ⟨?_, ?_, ?_⟩
  · unfold UpdateModuleSourceAndVersionE
    apply List.map_congr_left
    intro f _
    by_cases hskip : (f.isDir || !(isTfName f.name)) = true
    · simp [hskip]
    · simp only [hskip, Bool.false_eq_true, if_false, visitModuleBlocks_eq]
      by_cases hall : (f.blocks.all fun b => !(isTargetModule module b)) = true
      · have hany : f.blocks.any (isTargetModule module) = false := by
          rw [any_eq_not_all_not, hall]; rfl
        simp [hall, hany]
      · have hany : f.blocks.any (isTargetModule module) = true := by
          rw [any_eq_not_all_not]
          simp only [Bool.not_eq_true] at hall
          rw [hall]; rfl
        simp [hall, hany]
  · intro attrs n v
    induction attrs with
    | nil => simp [setAttr, getAttr]
    | cons kv rest ih =>
      obtain ⟨k, w⟩ := kv
      by_cases h : k = n
      · simp [setAttr, getAttr, h]
      · simp [setAttr, getAttr, h, ih]
  · intro attrs n hnd
    induction attrs with
    | nil => rfl
    | cons kv rest ih =>
      obtain ⟨k, w⟩ := kv
      simp only [List.map_cons, List.nodup_cons] at hnd
      by_cases h : k = n
      · subst h
        have hrem : removeAttr ((k, w) :: rest) k = rest := by simp [removeAttr]
        rw [hrem]
        exact getAttr_eq_none_of_not_mem rest k hnd.1
      · simp [removeAttr, getAttr, h, ih hnd.2]

/-- C9 witness: a directory with one matching module block (source `..`
normalised to `../`, version removed), one non-matching block and one
non-config file. -/
theorem update_module_spec_witness :
    UpdateModuleSourceAndVersionE
        [{ name := "main.tf", isDir := false,
           blocks := [{ type := "module", labels := ["app"],
                        attrs := [("source", "registry/x"), ("version", "1.0.0")] },
                      { type := "resource", labels := ["a", "b"], attrs := [("x", "y")] }] },
         { name := "notes.txt", isDir := false,
           blocks := [{ type := "module", labels := ["app"], attrs := [("source", "s")] }] }]
        "app" ".." ""
      = [{ name := "main.tf", isDir := false,
           blocks := [{ type := "module", labels := ["app"], attrs := [("source", "../")] },
                      { type := "resource", labels := ["a", "b"], attrs := [("x", "y")] }] },
         { name := "notes.txt", isDir := false,
           blocks := [{ type := "module", labels := ["app"], attrs := [("source", "s")] }] }]
  ∧ getAttr (setAttr [("source", "old"), ("version", "1.0.0")] "source" "../") "source"
      = some "../"
  ∧ getAttr (removeAttr [("source", "old"), ("version", "1.0.0")] "version") "version" = none :=
  ⟨((update_module_spec
      [{ name := "main.tf", isDir := false,
         blocks := [{ type := "module", labels := ["app"],
                      attrs := [("source", "registry/x"), ("version", "1.0.0")] },
                    { type := "resource", labels := ["a", "b"], attrs := [("x", "y")] }] },
       { name := "notes.txt", isDir := false,
         blocks := [{ type := "module", labels := ["app"], attrs := [("source", "s")] }] }]
      "app" ".." "").1).trans (by decide),
   (update_module_spec [] "app" ".." "").2.1 [("source", "old"), ("version", "1.0.0")] "source" "../",
   (update_module_spec [] "app" ".." "").2.2 [("source", "old"), ("version", "1.0.0")] "version"
     (by decide)⟩

/-- C6 (amended): `parseVersion` returns an error exactly when the dot-split
of the (v-stripped) input has fewer than three segments or `Atoi` rejects the
first or second segment; on success the major and minor are the integers Atoi
parsed -- possibly negative, since Atoi accepts a leading sign -- and the
patch is normalised to 0.  The third and later segments are never inspected. -/
theorem parseVersion_spec (v : String) :
    ((∃ e, parseVersion v = .error e) ↔
      ((splitOnChar '.' (dropLeadingV v.data)).length < 3
        ∨ goAtoi ((splitOnChar '.' (dropLeadingV v.data)).getD 0 []) = none
        ∨ goAtoi ((splitOnChar '.' (dropLeadingV v.data)).getD 1 []) = none))
  ∧ (∀ a b, 3 ≤ (splitOnChar '.' (dropLeadingV v.data)).length →
      goAtoi ((splitOnChar '.' (dropLeadingV v.data)).getD 0 []) = some a →
      goAtoi ((splitOnChar '.' (dropLeadingV v.data)).getD 1 []) = some b →
      parseVersion v = .ok { Major := a, Minor := b, Patch := 0 }) := by
  unfold parseVersion
  generalize splitOnChar '.' (dropLeadingV v.data) = parts
  match parts with
  | [] => simp
  | [p0] => simp
  | [p0, p1] => simp
  | p0 :: p1 :: p2 :: rest =>
    cases h0 : goAtoi p0 with
    | none => simp [h0]
    | some a =>
      cases h1 : goAtoi p1 with
      | none => simp [h0, h1]
      | some b =>
        constructor
        · simp [h0, h1]
        · intro a' b' _ ha hb
          rw [List.getD_cons_zero, h0] at ha
          rw [List.getD_cons_succ, List.getD_cons_zero, h1] at hb
          cases ha
          cases hb
          simp [h0, h1]

/-- C6 counterexample: the claim states that on success major and minor are
non-negative; "-1.2.3" parses successfully with a negative major because
`strconv.Atoi` accepts a leading sign. -/
theorem parseVersion_negative_major :
    parseVersion "-1.2.3" = .ok { Major := -1, Minor := 2, Patch := 0 }
  ∧ ({ Major := -1, Minor := 2, Patch := 0 } : Version).Major < 0 :=
  ⟨rfl, by decide⟩

/-- C6 witness: a well-formed version with a leading `v`. -/
theorem parseVersion_spec_witness :
    parseVersion "v1.2.9" = .ok { Major := 1, Minor := 2, Patch := 0 } :=
  (parseVersion_spec "v1.2.9").2 1 2 (by decide) (by decide) (by decide)

/-- A first parse failure in the list aborts `mapME` with an error. -/
theorem mapME_error_of_exists {α β : Type} (f : α → Except String β) (l : List α)
    (h : ∃ a ∈ l, ∃ e, f a = .error e) : ∃ e, mapME f l = .error e := by
  induction l with
  | nil => simp at h
  | cons x xs ih =>
    obtain ⟨a, ha, e, hfa⟩ := h
    rcases List.mem_cons.mp ha with rfl | ha'
    · exact ⟨e, by simp [mapME, hfa]⟩
    · cases hfx : f x with
      | error e' => exact ⟨e', by simp [mapME, hfx]⟩
      | ok y =>
        obtain ⟨e'', hm⟩ := ih ⟨a, ha', e, hfa⟩
        exact ⟨e'', by simp [mapME, hfx, hm]⟩

/-- A successfully parsed constraint-library version remembers the input
string it was parsed from. -/
theorem goParseVersion_original (s : String) (gv : GoVersion)
    (h : goParseVersion s = .ok gv) : gv.original = s := by
  simp only [goParseVersion] at h
  split at h
  · cases h
  · split at h
    · cases h
    · cases h
      rfl

/-- When every candidate parses, the matching loop computes exactly the
filter of the input strings by constraint satisfaction of their parses. -/
theorem matching_filter (want : List CTerm) (versions : List String)
    (h : ∀ v ∈ versions, ∃ gv, goParseVersion v = .ok gv) :
    ∃ vers, mapME goParseVersion versions = .ok vers
      ∧ (vers.filter (goCheck want)).map GoVersion.original
          = versions.filter (fun s =>
              match goParseVersion s with
              | .ok gv => goCheck want gv
              | .error _ => false) := by
  induction versions with
  | nil => exact ⟨[], rfl, rfl⟩
  | cons v vs ih =>
    obtain ⟨gv, hgv⟩ := h v (List.mem_cons_self v vs)
    obtain ⟨vers, hm, hf⟩ := ih (fun a ha => h a (List.mem_cons_of_mem _ ha))
    refine ⟨gv :: vers, by simp [mapME, hgv, hm], ?_⟩
    by_cases hc : goCheck want gv = true
    · simp [List.filter_cons, hc, hgv, hf, goParseVersion_original v gv hgv]
    · simp only [Bool.not_eq_true] at hc
      simp [List.filter_cons, hc, hgv, hf]

/-- C5: `GetMatchingVersionsE` fails atomically when the constraint string is
malformed (first conjunct) or when any candidate version fails to parse
(second conjunct), and otherwise returns exactly the subset of the given
version strings whose parsed version satisfies the constraint (third
conjunct); on the claim's concrete input it returns exactly
["1.2.0", "1.9.9"] (last conjunct). -/
theorem getMatchingVersions_spec (constraint : String) (versions : List String) :
    (∀ e, goParseConstraint constraint = .error e →
       GetMatchingVersionsE constraint versions = .error e)
  ∧ ((∃ v ∈ versions, ∃ e, goParseVersion v = .error e) →
       ∃ e, GetMatchingVersionsE constraint versions = .error e)
  ∧ (∀ want, goParseConstraint constraint = .ok want →
       (∀ v ∈ versions, ∃ gv, goParseVersion v = .ok gv) →
       GetMatchingVersionsE constraint versions
         = .ok (versions.filter (fun s =>
             match goParseVersion s with
             | .ok gv => goCheck want gv
             | .error _ => false)))
  ∧ GetMatchingVersionsE ">=1.2.0, <2.0.0" ["1.1.0", "1.2.0", "1.9.9", "2.0.0"]
      = .ok ["1.2.0", "1.9.9"] := by
  refine ⟨?_, ?_, ?_, rfl⟩
  · intro e he
    simp [GetMatchingVersionsE, he]
  · intro hex
    cases hc : goParseConstraint constraint with
    | error e => exact ⟨e, by simp [GetMatchingVersionsE, hc]⟩
    | ok want =>
      obtain ⟨e, hm⟩ := mapME_error_of_exists goParseVersion versions hex
      exact ⟨e, by simp [GetMatchingVersionsE, hc, hm]⟩
  · intro want hw hall
    obtain ⟨vers, hm, hf⟩ := matching_filter want versions hall
    simp [GetMatchingVersionsE, hw, hm, hf]

/-- C5 witness: a concrete constraint and fully parseable candidate list. -/
theorem getMatchingVersions_spec_witness :
    GetMatchingVersionsE ">=1.0.0" ["1.5.0", "0.9.0"]
      = .ok (["1.5.0", "0.9.0"].filter (fun s =>
          match goParseVersion s with
          | .ok gv =>
            goCheck [{ op := .cge, v := { maj := 1, mnr := 0, pat := 0, original := "1.0.0" } }] gv
          | .error _ => false)) :=
  (getMatchingVersions_spec ">=1.0.0" ["1.5.0", "0.9.0"]).2.2.1
    [{ op := .cge, v := { maj := 1, mnr := 0, pat := 0, original := "1.0.0" } }]
    rfl
    (by
      intro v hv
      fin_cases hv
      · exact ⟨_, rfl⟩
      · exact ⟨_, rfl⟩)

/-! ### Decimal rendering round-trips through parsing (for C7) -/

theorem digitVal_digitChar (d : Nat) (h : d < 10) : digitVal (digitChar d) = d := by
  interval_cases d <;> rfl

theorem isDigitB_digitChar (d : Nat) (h : d < 10) : isDigitB (digitChar d) = true := by
  interval_cases d <;> rfl

theorem natFmtAux_ne_nil : ∀ (fuel n : Nat), n < fuel → natFmtAux fuel n ≠ []
  | 0, n, h => absurd h (Nat.not_lt_zero n)
  | fuel + 1, n, _ => by
    unfold natFmtAux
    by_cases h10 : n < 10 <;> simp [h10]

theorem natFmtAux_digits : ∀ (fuel n : Nat), n < fuel → ∀ c ∈ natFmtAux fuel n, isDigitB c = true
  | 0, n, h => absurd h (Nat.not_lt_zero n)
  | fuel + 1, n, h => by
    unfold natFmtAux
    by_cases h10 : n < 10
    · simp only [if_pos h10, List.mem_singleton]
      rintro c rfl
      exact isDigitB_digitChar n h10
    · simp only [if_neg h10, List.mem_append, List.mem_singleton]
      rintro c (hc | rfl)
      · have hlt : n / 10 < fuel := by
          have := Nat.div_lt_self (show 0 < n by omega) (show 1 < 10 by omega)
          omega
        exact natFmtAux_digits fuel (n / 10) hlt c hc
      · exact isDigitB_digitChar (n % 10) (Nat.mod_lt n (by omega))

theorem natFmtAux_foldl : ∀ (fuel n : Nat), n < fuel → ∀ a : Nat,
    List.foldl (fun a c => a * 10 + digitVal c) a (natFmtAux fuel n)
      = a * 10 ^ (natFmtAux fuel n).length + n
  | 0, n, h => absurd h (Nat.not_lt_zero n)
  | fuel + 1, n, h => by
    intro a
    unfold natFmtAux
    by_cases h10 : n < 10
    · simp only [if_pos h10, List.foldl_cons, List.foldl_nil, List.length_singleton]
      rw [digitVal_digitChar n h10]
      ring
    · have hlt : n / 10 < fuel := by
        have := Nat.div_lt_self (show 0 < n by omega) (show 1 < 10 by omega)
        omega
      simp only [if_neg h10, List.foldl_append, List.foldl_cons, List.foldl_nil,
        List.length_append, List.length_singleton]
      rw [natFmtAux_foldl fuel (n / 10) hlt a]
      rw [digitVal_digitChar (n % 10) (Nat.mod_lt n (by omega))]
      calc (a * 10 ^ (natFmtAux fuel (n / 10)).length + n / 10) * 10 + n % 10
          = a * (10 ^ (natFmtAux fuel (n / 10)).length * 10) + (n / 10 * 10 + n % 10) := by ring
        _ = a * 10 ^ ((natFmtAux fuel (n / 10)).length + 1) + n := by
            rw [show n / 10 * 10 + n % 10 = n by omega, pow_succ]

theorem natFmt_ne_nil (n : Nat) : natFmt n ≠ [] :=
  natFmtAux_ne_nil (n + 1) n (Nat.lt_succ_self n)

theorem natFmt_digits (n : Nat) : ∀ c ∈ natFmt n, isDigitB c = true :=
  natFmtAux_digits (n + 1) n (Nat.lt_succ_self n)

theorem parseDigits_natFmt (n : Nat) : parseDigits (natFmt n) = some n := by
  unfold parseDigits
  rw [if_pos]
  · unfold digitsVal natFmt
    rw [natFmtAux_foldl (n + 1) n (Nat.lt_succ_self n) 0]
    simp
  · refine ⟨natFmt_ne_nil n, ?_⟩
    rw [List.all_eq_true]
    exact natFmt_digits n

theorem isDigitB_ne_sign (c : Char) (h : isDigitB c = true) : c ≠ '-' ∧ c ≠ '+' := by
  constructor <;> rintro rfl <;> exact absurd h (by decide)

theorem goAtoi_intFmt (i : Int) : goAtoi (intFmt i) = some i := by
  unfold intFmt
  by_cases hneg : i < 0
  · rw [if_pos hneg]
    simp only [goAtoi, if_true]
    rw [parseDigits_natFmt]
    have : -((i.natAbs : Nat) : Int) = i := by omega
    simp [this]
    rw [abs_of_neg hneg]
    exact neg_neg i
  · rw [if_neg hneg]
    cases hl : natFmt i.natAbs with
    | nil => exact absurd hl (natFmt_ne_nil i.natAbs)
    | cons c cs =>
      have hdig : isDigitB c = true :=
        natFmt_digits i.natAbs c (by rw [hl]; exact List.mem_cons_self c cs)
      obtain ⟨hm, hp⟩ := isDigitB_ne_sign c hdig
      simp only [goAtoi]
      rw [if_neg hm, if_neg hp, ← hl, parseDigits_natFmt]
      have : ((i.natAbs : Nat) : Int) = i := by omega
      simp [this]

theorem dot_not_mem_natFmt (n : Nat) : '.' ∉ natFmt n := fun h =>
  absurd (natFmt_digits n '.' h) (by decide)

theorem dot_not_mem_intFmt (i : Int) : '.' ∉ intFmt i := by
  unfold intFmt
  by_cases hneg : i < 0
  · rw [if_pos hneg]
    intro h
    rcases List.mem_cons.mp h with h | h
    · exact absurd h (by decide)
    · exact dot_not_mem_natFmt _ h
  · rw [if_neg hneg]
    exact dot_not_mem_natFmt _

theorem intFmt_head_ne_v (i : Int) (c : Char) (cs : List Char) (h : intFmt i = c :: cs) :
    c ≠ 'v' := by
  unfold intFmt at h
  by_cases hneg : i < 0
  · rw [if_pos hneg] at h
    injection h with h1 _
    rw [← h1]
    decide
  · rw [if_neg hneg] at h
    have hdig : isDigitB c = true :=
      natFmt_digits i.natAbs c (by rw [h]; exact List.mem_cons_self c cs)
    rintro rfl
    exact absurd hdig (by decide)

theorem dropLeadingV_eq_self (l : List Char) (h : ∀ c cs, l = c :: cs → c ≠ 'v') :
    dropLeadingV l = l := by
  cases l with
  | nil => rfl
  | cons c cs => simp [dropLeadingV, h c cs rfl]

/-! ### Splitting formatted keys back into their segments (for C7) -/

theorem splitOnChar_ne_nil (sep : Char) : ∀ l, splitOnChar sep l ≠ []
  | [] => by simp [splitOnChar]
  | c :: rest => by
    simp only [splitOnChar]
    cases hr : splitOnChar sep rest with
    | nil => by_cases h : c = sep <;> simp [h]
    | cons a t => by_cases h : c = sep <;> simp [h]

theorem splitOnChar_of_not_mem (sep : Char) : ∀ (l : List Char), sep ∉ l → splitOnChar sep l = [l]
  | [], _ => rfl
  | c :: rest, h => by
    have hc : c ≠ sep := fun hh => h (hh ▸ List.mem_cons_self c rest)
    have hr : sep ∉ rest := fun hh => h (List.mem_cons_of_mem c hh)
    simp only [splitOnChar]
    rw [splitOnChar_of_not_mem sep rest hr]
    simp [hc]

theorem splitOnChar_append (sep : Char) : ∀ (l1 l2 : List Char), sep ∉ l1 →
    splitOnChar sep (l1 ++ sep :: l2) = l1 :: splitOnChar sep l2
  | [], l2, _ => by
    simp only [List.nil_append, splitOnChar]
    cases hr : splitOnChar sep l2 with
    | nil => exact absurd hr (splitOnChar_ne_nil sep l2)
    | cons a t => simp
  | c :: l1, l2, h => by
    have hc : c ≠ sep := fun hh => h (hh ▸ List.mem_cons_self c l1)
    have h1 : sep ∉ l1 := fun hh => h (List.mem_cons_of_mem c hh)
    simp only [List.cons_append, splitOnChar, List.append_eq]
    rw [splitOnChar_append sep l1 l2 h1]
    simp [hc]

/-- Parsing a formatted `major.minor.0` key recovers the version: the
round-trip at the heart of the idempotence of `FilterMinorVersionsE`. -/
theorem parseVersion_fmtKey (a b : Int) :
    parseVersion (fmtKey { Major := a, Minor := b, Patch := 0 })
      = .ok { Major := a, Minor := b, Patch := 0 } := by
  unfold parseVersion fmtKey
  dsimp only
  rw [dropLeadingV_eq_self _ (by
    intro c cs hcc
    cases hia : intFmt a with
    | nil => exact absurd hia (by unfold intFmt; by_cases hneg : a < 0 <;>
        simp [hneg, natFmt_ne_nil]
        )
    | cons c0 cs0 =>
      rw [hia] at hcc
      injection hcc with h1 _
      rw [← h1]
      exact intFmt_head_ne_v a c0 cs0 hia)]
  rw [splitOnChar_append '.' (intFmt a) _ (dot_not_mem_intFmt a)]
  rw [splitOnChar_append '.' (intFmt b) _ (dot_not_mem_intFmt b)]
  rw [splitOnChar_of_not_mem '.' (intFmt 0) (dot_not_mem_intFmt 0)]
  dsimp only
  rw [goAtoi_intFmt a, goAtoi_intFmt b]

/-- A successful `parseVersion` always normalises the patch to zero. -/
theorem parseVersion_patch (v : String) (p : Version) (h : parseVersion v = .ok p) :
    p.Patch = 0 := by
  unfold parseVersion at h
  split at h
  · split at h
    · cases h
    · split at h
      · cases h
      · cases h
        rfl
  · cases h

/-! ### The lexicographic order and the sort/dedup pipeline (for C7) -/

theorem lexLe_total : ∀ (a b : List Char), lexLe a b = true ∨ lexLe b a = true
  | [], _ => .inl rfl
  | _ :: _, [] => .inr rfl
  | a :: as, b :: bs => by
    rcases Nat.lt_trichotomy a.toNat b.toNat with h | h | h
    · left
      simp [lexLe, h]
    · have hnl : ¬ a.toNat < b.toNat := by omega
      have hnl' : ¬ b.toNat < a.toNat := by omega
      rcases lexLe_total as bs with ih | ih
      · left
        simp [lexLe, hnl, hnl', ih]
      · right
        simp [lexLe, hnl, hnl', ih]
    · right
      simp [lexLe, h]

theorem lexLe_trans : ∀ (a b c : List Char),
    lexLe a b = true → lexLe b c = true → lexLe a c = true
  | [], _, _, _, _ => rfl
  | _ :: _, [], _, h1, _ => by cases h1
  | _ :: _, _ :: _, [], _, h2 => by cases h2
  | a :: as, b :: bs, c :: cs, h1, h2 => by
    simp only [lexLe] at h1 h2 ⊢
    by_cases hab : a.toNat < b.toNat
    · by_cases hbc : b.toNat < c.toNat
      · rw [if_pos (show a.toNat < c.toNat by omega)]
      · by_cases hcb : c.toNat < b.toNat
        · rw [if_neg hbc, if_pos hcb] at h2
          cases h2
        · rw [if_pos (show a.toNat < c.toNat by omega)]
    · by_cases hba : b.toNat < a.toNat
      · rw [if_neg hab, if_pos hba] at h1
        cases h1
      · rw [if_neg hab, if_neg hba] at h1
        by_cases hbc : b.toNat < c.toNat
        · rw [if_pos (show a.toNat < c.toNat by omega)]
        · by_cases hcb : c.toNat < b.toNat
          · rw [if_neg hbc, if_pos hcb] at h2
            cases h2
          · rw [if_neg hbc, if_neg hcb] at h2
            rw [if_neg (show ¬ a.toNat < c.toNat by omega),
              if_neg (show ¬ c.toNat < a.toNat by omega)]
            exact lexLe_trans as bs cs h1 h2

theorem lexLe_antisymm : ∀ (a b : List Char), lexLe a b = true → lexLe b a = true → a = b
  | [], [], _, _ => rfl
  | [], _ :: _, _, h2 => by cases h2
  | _ :: _, [], h1, _ => by cases h1
  | a :: as, b :: bs, h1, h2 => by
    simp only [lexLe] at h1 h2
    by_cases hab : a.toNat < b.toNat
    · rw [if_neg (show ¬ b.toNat < a.toNat by omega), if_pos hab] at h2
      cases h2
    · by_cases hba : b.toNat < a.toNat
      · rw [if_neg hab, if_pos hba] at h1
        cases h1
      · rw [if_neg hab, if_neg hba] at h1
        rw [if_neg hba, if_neg hab] at h2
        have hc : a = b := Char.ext (UInt32.ext (by
          have : a.toNat = b.toNat := by omega
          simpa [Char.toNat] using this))
        rw [hc, lexLe_antisymm as bs h1 h2]

theorem strLe_total (a b : String) : strLe a b = true ∨ strLe b a = true :=
  lexLe_total a.data b.data

theorem strLe_trans {a b c : String} (h1 : strLe a b = true) (h2 : strLe b c = true) :
    strLe a c = true :=
  lexLe_trans a.data b.data c.data h1 h2

theorem strLe_antisymm {a b : String} (h1 : strLe a b = true) (h2 : strLe b a = true) :
    a = b := by
  cases a with
  | mk da =>
    cases b with
    | mk db => exact congrArg String.mk (lexLe_antisymm da db h1 h2)

theorem insertS_head (x : String) (l : List String) :
    (insertS x l).head? = some x ∨ (insertS x l).head? = l.head? := by
  cases l with
  | nil => exact .inl rfl
  | cons y ys =>
    by_cases hxy : strLe x y = true
    · left
      simp [insertS, hxy]
    · right
      simp [insertS, hxy]

theorem chain'_insertS (x : String) : ∀ (l : List String),
    List.Chain' (fun a b => strLe a b = true) l →
    List.Chain' (fun a b => strLe a b = true) (insertS x l)
  | [], _ => List.chain'_singleton x
  | y :: ys, h => by
    by_cases hxy : strLe x y = true
    · rw [insertS, if_pos hxy]
      exact List.chain'_cons.mpr ⟨hxy, h⟩
    · rw [insertS, if_neg hxy]
      have hyx : strLe y x = true := (strLe_total x y).resolve_left hxy
      refine List.chain'_cons'.mpr ⟨?_, chain'_insertS x ys (List.chain'_cons'.mp h).2⟩
      intro z hz
      rcases insertS_head x ys with hh | hh
      · rw [hh] at hz
        cases hz
        exact hyx
      · rw [hh] at hz
        exact (List.chain'_cons'.mp h).1 z hz

theorem sortS_sorted : ∀ l : List String, List.Chain' (fun a b => strLe a b = true) (sortS l)
  | [] => List.chain'_nil
  | x :: xs => chain'_insertS x (sortS xs) (sortS_sorted xs)

theorem sortS_eq_self : ∀ l, List.Chain' (fun a b => strLe a b = true) l → sortS l = l
  | [], _ => rfl
  | x :: xs, h => by
    simp only [sortS]
    rw [sortS_eq_self xs (List.chain'_cons'.mp h).2]
    cases xs with
    | nil => rfl
    | cons y ys =>
      have hxy : strLe x y = true := (List.chain'_cons.mp h).1
      rw [insertS, if_pos hxy]

theorem dedupAdj_cons : ∀ (l : List String) (x : String), ∃ t, dedupAdj (x :: l) = x :: t
  | [], x => ⟨[], rfl⟩
  | y :: rest, x => by
    by_cases h : x = y
    · obtain ⟨t, ht⟩ := dedupAdj_cons rest y
      refine ⟨t, ?_⟩
      simp only [dedupAdj, if_pos h]
      rw [ht, h]
    · exact ⟨dedupAdj (y :: rest), by simp only [dedupAdj, if_neg h]⟩

theorem dedupAdj_strict : ∀ (l : List String),
    List.Chain' (fun a b => strLe a b = true) l →
    List.Chain' (fun a b : String => strLe a b = true ∧ a ≠ b) (dedupAdj l)
  | [], _ => List.chain'_nil
  | [x], _ => by
    simp only [dedupAdj]
    exact List.chain'_singleton x
  | x :: y :: rest, h => by
    by_cases hxy : x = y
    · simp only [dedupAdj, if_pos hxy]
      exact dedupAdj_strict (y :: rest) (List.chain'_cons.mp h).2
    · simp only [dedupAdj, if_neg hxy]
      obtain ⟨t, ht⟩ := dedupAdj_cons rest y
      rw [ht]
      have htail := dedupAdj_strict (y :: rest) (List.chain'_cons.mp h).2
      rw [ht] at htail
      exact List.chain'_cons.mpr ⟨⟨(List.chain'_cons.mp h).1, hxy⟩, htail⟩

theorem dedupAdj_eq_self : ∀ (l : List String),
    List.Chain' (fun a b : String => a ≠ b) l → dedupAdj l = l
  | [], _ => rfl
  | [x], _ => rfl
  | x :: y :: rest, h => by
    have hxy : x ≠ y := (List.chain'_cons.mp h).1
    simp only [dedupAdj, if_neg hxy]
    rw [dedupAdj_eq_self (y :: rest) (List.chain'_cons.mp h).2]

theorem mem_insertS (a x : String) : ∀ l, a ∈ insertS x l → a = x ∨ a ∈ l
  | [], h => by simpa [insertS] using h
  | y :: ys, h => by
    by_cases hxy : strLe x y = true
    · rw [insertS, if_pos hxy] at h
      exact List.mem_cons.mp h
    · rw [insertS, if_neg hxy] at h
      rcases List.mem_cons.mp h with rfl | h'
      · exact .inr (List.mem_cons_self a ys)
      · rcases mem_insertS a x ys h' with h'' | h''
        · exact .inl h''
        · exact .inr (List.mem_cons_of_mem _ h'')

theorem mem_sortS (a : String) : ∀ l, a ∈ sortS l → a ∈ l
  | [], h => by simp [sortS] at h
  | x :: xs, h => by
    rcases mem_insertS a x (sortS xs) (by simpa [sortS] using h) with rfl | h'
    · exact List.mem_cons_self a xs
    · exact List.mem_cons_of_mem _ (mem_sortS a xs h')

theorem mem_dedupAdj (a : String) : ∀ l, a ∈ dedupAdj l → a ∈ l
  | [], h => h
  | [x], h => h
  | x :: y :: rest, h => by
    by_cases hxy : x = y
    · simp only [dedupAdj, if_pos hxy] at h
      exact List.mem_cons_of_mem x (mem_dedupAdj a (y :: rest) h)
    · simp only [dedupAdj, if_neg hxy] at h
      rcases List.mem_cons.mp h with rfl | h'
      · exact List.mem_cons_self a (y :: rest)
      · exact List.mem_cons_of_mem _ (mem_dedupAdj a (y :: rest) h')

/-- Every key produced by the collection loop is a formatted version with a
zero patch. -/
theorem collectKeys_keys : ∀ (vs ks : List String), collectKeys vs = .ok ks →
    ∀ k ∈ ks, ∃ p : Version, p.Patch = 0 ∧ k = fmtKey p
  | [], ks, h => by
    cases h
    simp
  | v :: vs, ks, h => by
    simp only [collectKeys] at h
    cases hp : parseVersion v with
    | error e =>
      rw [hp] at h
      cases h
    | ok p =>
      rw [hp] at h
      cases hck : collectKeys vs with
      | error e =>
        rw [hck] at h
        cases h
      | ok ks' =>
        rw [hck] at h
        cases h
        intro k hk
        rcases List.mem_cons.mp hk with rfl | hk'
        · exact ⟨p, parseVersion_patch v p hp, rfl⟩
        · exact collectKeys_keys vs ks' hck k hk'

/-- On a list of keys that parse back to the version they format, the
collection loop is the identity. -/
theorem collectKeys_roundtrip : ∀ (ys : List String),
    (∀ y ∈ ys, ∃ p, parseVersion y = .ok p ∧ fmtKey p = y) → collectKeys ys = .ok ys
  | [], _ => rfl
  | y :: ys, h => by
    obtain ⟨p, hp, hfk⟩ := h y (List.mem_cons_self y ys)
    simp only [collectKeys, hp,
      collectKeys_roundtrip ys (fun z hz => h z (List.mem_cons_of_mem _ hz)), hfk]

/-- C7: a successful `FilterMinorVersionsE` returns a lexicographically
strictly sorted (hence deduplicated) list, each entry the formatted
`major.minor.0` key of some parsed version (patch zero), and the operation is
idempotent: running it on its own output returns that output unchanged. -/
theorem filterMinor_spec (versions ys : List String)
    (h : FilterMinorVersionsE versions = .ok ys) :
    List.Chain' (fun a b : String => strLe a b = true ∧ a ≠ b) ys
  ∧ (∀ y ∈ ys, ∃ p : Version, p.Patch = 0 ∧ y = fmtKey p)
  ∧ FilterMinorVersionsE ys = .ok ys := by
  unfold FilterMinorVersionsE at h
  cases hck : collectKeys versions with
  | error e =>
    rw [hck] at h
    cases h
  | ok ks =>
    rw [hck] at h
    cases h
    have hsorted := sortS_sorted ks
    have hstrict := dedupAdj_strict _ hsorted
    have hshape : ∀ y ∈ dedupAdj (sortS ks), ∃ p : Version, p.Patch = 0 ∧ y = fmtKey p :=
      fun y hy =>
        collectKeys_keys versions ks hck y (mem_sortS y ks (mem_dedupAdj y (sortS ks) hy))
    refine ⟨hstrict, hshape, ?_⟩
    have hparse : ∀ y ∈ dedupAdj (sortS ks), ∃ p, parseVersion y = .ok p ∧ fmtKey p = y := by
      intro y hy
      obtain ⟨p, hp0, hfk⟩ := hshape y hy
      obtain ⟨pa, pb, pc⟩ := p
      simp only at hp0
      subst hp0
      exact ⟨{ Major := pa, Minor := pb, Patch := 0 }, hfk ▸ parseVersion_fmtKey pa pb, hfk.symm⟩
    unfold FilterMinorVersionsE
    rw [collectKeys_roundtrip _ hparse]
    dsimp only
    rw [sortS_eq_self _ (hstrict.imp fun a b hab => hab.1)]
    rw [dedupAdj_eq_self _ (hstrict.imp fun a b hab => hab.2)]

/-- C7 witness: patch components collapse to zero, the output is sorted
lexicographically (so "1.10.0" precedes "1.2.0") and deduplicated, and a
second application returns the output unchanged. -/
theorem filterMinor_spec_witness :
    FilterMinorVersionsE ["1.2.3", "1.2.4", "v1.10.1"] = .ok ["1.10.0", "1.2.0"]
  ∧ FilterMinorVersionsE ["1.10.0", "1.2.0"] = .ok ["1.10.0", "1.2.0"] :=
  ⟨rfl, (filterMinor_spec ["1.2.3", "1.2.4", "v1.10.1"] ["1.10.0", "1.2.0"] rfl).2.2⟩
